import Mathlib

/-!
A shallow embedding of the `augustus` schema-combinator library.

JavaScript runtime values are modelled by the inductive type `JSValue`
(numbers are modelled as integers; reference identity of objects is not
modelled, so `Object.is` and `===` become value equality, which is exact
on the primitive values the library compares). A `Schema<T, S>` is a
triple of functions; since the TypeScript functions are dynamically
typed at runtime, the embedding uses the single universe `JSValue` for
both the domain and the representation side. `encode` and `decode` can
throw (`impossible`, the lookup-miss errors of `indexing`/`mapping`, and
native type errors on off-domain inputs), so they return
`Except JSError JSValue`; `validate` is total and returns `Bool`.
-/

namespace Augustus

/-- JavaScript runtime values: strings, numbers (modelled as `Int`),
booleans, `null`, `undefined`, arrays, and plain objects modelled as
association lists in property-insertion order. -/
inductive JSValue : Type
  | str (s : String)
  | num (n : Int)
  | bool (b : Bool)
  | null
  | undefined
  | arr (elems : List JSValue)
  | obj (fields : List (String × JSValue))

mutual

/-- Strict value equality on `JSValue` (the model of `===`/`Object.is`;
reference identity is not modelled, see the header comment). -/
def beqVal : JSValue → JSValue → Bool
  | .str a, .str b => a == b
  | .num a, .num b => a == b
  | .bool a, .bool b => a == b
  | .null, .null => true
  | .undefined, .undefined => true
  | .arr as, .arr bs => beqValList as bs
  | .obj as, .obj bs => beqValFields as bs
  | _, _ => false

/-- Element-wise `beqVal` on lists. -/
def beqValList : List JSValue → List JSValue → Bool
  | [], [] => true
  | a :: as, b :: bs => beqVal a b && beqValList as bs
  | _, _ => false

/-- Pair-wise `beqVal` on association lists. -/
def beqValFields : List (String × JSValue) → List (String × JSValue) → Bool
  | [], [] => true
  | (ka, va) :: as, (kb, vb) :: bs =>
    (ka == kb && beqVal va vb) && beqValFields as bs
  | _, _ => false

end

instance : BEq JSValue := ⟨beqVal⟩

theorem beqValList_iff_of (as bs : List JSValue)
    (ih : ∀ a ∈ as, ∀ b, beqVal a b = true ↔ a = b) :
    beqValList as bs = true ↔ as = bs := by
  induction as generalizing bs with
  | nil => cases bs <;> simp [beqValList]
  | cons a as ihl =>
    cases bs with
    | nil => simp [beqValList]
    | cons b bs =>
      have ha := ih a (by simp)
      have hrest := ihl bs (fun x hx b => ih x (List.mem_cons_of_mem a hx) b)
      simp [beqValList, ha, hrest]

theorem beqValFields_iff_of (as bs : List (String × JSValue))
    (ih : ∀ p ∈ as, ∀ b, beqVal p.2 b = true ↔ p.2 = b) :
    beqValFields as bs = true ↔ as = bs := by
  induction as generalizing bs with
  | nil => cases bs <;> simp [beqValFields]
  | cons a as ihl =>
    cases bs with
    | nil => simp [beqValFields]
    | cons b bs =>
      have ha := ih a (by simp) b.2
      have hrest := ihl bs (fun x hx b => ih x (List.mem_cons_of_mem a hx) b)
      obtain ⟨ka, va⟩ := a
      obtain ⟨kb, vb⟩ := b
      simp only [beqValFields, Bool.and_eq_true, beq_iff_eq, List.cons.injEq,
        Prod.mk.injEq] at ha ⊢
      rw [ha, hrest]

theorem beqVal_iff_aux :
    ∀ (n : ℕ) (a b : JSValue), sizeOf a ≤ n → (beqVal a b = true ↔ a = b) := by
  intro n
  induction n with
  | zero =>
    intro a b h
    cases a <;> simp at h
  | succ n ih =>
    intro a b h
    cases a <;> cases b <;> simp [beqVal]
    case arr.arr xs ys =>
      refine beqValList_iff_of xs ys fun x hx b => ih x b ?_
      have hlt := List.sizeOf_lt_of_mem hx
      have : sizeOf (JSValue.arr xs) ≤ n + 1 := h
      simp [JSValue.arr.sizeOf_spec] at this
      omega
    case obj.obj xs ys =>
      refine beqValFields_iff_of xs ys fun p hp b => ih p.2 b ?_
      have hlt := List.sizeOf_lt_of_mem hp
      have hp2 : sizeOf p.2 < sizeOf p := by
        obtain ⟨k, v⟩ := p
        simp
      have : sizeOf (JSValue.obj xs) ≤ n + 1 := h
      simp [JSValue.obj.sizeOf_spec] at this
      omega

theorem beqVal_iff (a b : JSValue) : beqVal a b = true ↔ a = b :=
  beqVal_iff_aux (sizeOf a) a b le_rfl

instance : LawfulBEq JSValue where
  eq_of_beq h := (beqVal_iff _ _).mp h
  rfl := (beqVal_iff _ _).mpr rfl

instance : DecidableEq JSValue :=
  fun a b => decidable_of_iff (beqVal a b = true) (beqVal_iff a b)

/-- Exceptions the library can throw from `encode`/`decode`:
`impossible` is `Utils.impossible` ("This code should be unreachable"),
`encodeMiss` the `augustus: attempted to encode ...` errors of
`indexing`/`mapping`, and `typeError` a native TypeError from applying
an operation to an off-domain value (e.g. `.map` on a non-array). -/
inductive JSError : Type
  | impossible
  | encodeMiss
  | typeError
deriving DecidableEq

/-- `Schema<T, S>`: the `encode`/`decode`/`validate` triple
(src/src/Schema.ts). -/
structure Schema : Type where
  encode : JSValue → Except JSError JSValue
  decode : JSValue → Except JSError JSValue
  validate : JSValue → Bool

/-- JavaScript property access `v[k]` for a string key: looks a key up in
an object (absent keys give `undefined`), and on arrays resolves numeric
keys to elements and `"length"` to the length. (Non-canonical numeric
strings such as `"01"` are not distinguished; no combinator produces
them.) Primitive receivers give `undefined` via boxing; access on `null`
or `undefined`, which throws in JS, is also modelled as `undefined` — no
combinator reaches it, since `recordOf.validate` checks for a non-null
object first and the codecs assume domain-typed input. -/
def getProp : JSValue → String → JSValue
  | .obj fields, k =>
    match fields.find? (fun p => p.1 == k) with
    | some p => p.2
    | none => .undefined
  | .arr xs, k =>
    if k == "length" then .num (xs.length : Int)
    else
      match k.toNat? with
      | some i => xs.getD i .undefined
      | none => .undefined
  | _, _ => .undefined

/-- `typeof data === "object" && data !== null`: true exactly for objects
and arrays (functions are not part of the value model). -/
def isObjectType : JSValue → Bool
  | .obj _ => true
  | .arr _ => true
  | _ => false

/-- `primitive(validate)`: encode and decode are the identity `id`. -/
def primitive (validate : JSValue → Bool) : Schema where
  encode := fun x => .ok x
  decode := fun x => .ok x
  validate := validate

/-- `literal(value)`: identity codecs, validation by `Object.is` (value
identity in this model). -/
def literal (value : JSValue) : Schema where
  encode := fun x => .ok x
  decode := fun x => .ok x
  validate := fun x => x == value

/-- `anAny`: validates everything. -/
def anAny : Schema := primitive fun _ => true

/-- `aString`: `typeof data === "string"`. -/
def aString : Schema := primitive fun x =>
  match x with
  | .str _ => true
  | _ => false

/-- `aNumber`: `typeof data === "number"`. -/
def aNumber : Schema := primitive fun x =>
  match x with
  | .num _ => true
  | _ => false

/-- `aBoolean`: `typeof data === "boolean"`. -/
def aBoolean : Schema := primitive fun x =>
  match x with
  | .bool _ => true
  | _ => false

/-- `aNull`: `data === null`. -/
def aNull : Schema := primitive fun x =>
  match x with
  | .null => true
  | _ => false

/-- `anUndefined`: `typeof data === "undefined"`. -/
def anUndefined : Schema := primitive fun x =>
  match x with
  | .undefined => true
  | _ => false

/-- `contra(schema, encode, decode)`: adapts the domain side; the
representation side and the validator are unchanged. The adapter
functions are `Except`-valued because callers (`compose`, `indexing`,
`mapping`) pass functions that can throw. -/
def contra (schema : Schema) (encode decode : JSValue → Except JSError JSValue) :
    Schema where
  encode := fun x => encode x >>= schema.encode
  decode := fun x => schema.decode x >>= decode
  validate := schema.validate

/-- `compose(schema1, schema2) = contra(schema2, schema1.encode,
schema1.decode)`. -/
def compose (schema1 schema2 : Schema) : Schema :=
  contra schema2 schema1.encode schema1.decode

/-- `arrayOf(elementsSchema)`: maps the element codec over arrays;
validation requires an array all of whose elements validate. -/
def arrayOf (elementsSchema : Schema) : Schema where
  encode := fun v =>
    match v with
    | .arr xs => (xs.mapM elementsSchema.encode).map .arr
    | _ => .error .typeError
  decode := fun v =>
    match v with
    | .arr xs => (xs.mapM elementsSchema.decode).map .arr
    | _ => .error .typeError
  validate := fun v =>
    match v with
    | .arr xs => xs.all elementsSchema.validate
    | _ => false

/-- `tupleOf(...elementSchemas)`: positional codecs
(`tup.map((x, i) => elementSchemas[i].encode(x))`, where an index past
the schema list is a TypeError); validation requires an array of exactly
the declared length whose i-th element satisfies the i-th validator. -/
def tupleOf (elementSchemas : List Schema) : Schema where
  encode := fun v =>
    match v with
    | .arr xs =>
      (xs.enum.mapM fun (p : Nat × JSValue) =>
        match elementSchemas[p.1]? with
        | some s => s.encode p.2
        | none => .error .typeError).map .arr
    | _ => .error .typeError
  decode := fun v =>
    match v with
    | .arr xs =>
      (xs.enum.mapM fun (p : Nat × JSValue) =>
        match elementSchemas[p.1]? with
        | some s => s.decode p.2
        | none => .error .typeError).map .arr
    | _ => .error .typeError
  validate := fun v =>
    match v with
    | .arr xs =>
      xs.length == elementSchemas.length &&
        elementSchemas.enum.all fun (p : Nat × Schema) =>
          p.2.validate (xs.getD p.1 .undefined)
    | _ => false

/-- `anEmptyArray = tupleOf()`. -/
def anEmptyArray : Schema := tupleOf []

/-- `recordOf(structure)`: iterates the declared fields in declaration
order, reading `x[key]` (so an absent key reads as `undefined`);
validation first requires `typeof data === "object" && data !== null`
and then runs every declared field's validator on `data[key]`. -/
def recordOf (fields : List (String × Schema)) : Schema where
  encode := fun x =>
    (fields.mapM fun (p : String × Schema) =>
      (p.2.encode (getProp x p.1)).map fun v => (p.1, v)).map .obj
  decode := fun x =>
    (fields.mapM fun (p : String × Schema) =>
      (p.2.decode (getProp x p.1)).map fun v => (p.1, v)).map .obj
  validate := fun data =>
    isObjectType data &&
      fields.all fun p => p.2.validate (getProp data p.1)

/-- `anEmptyObject = recordOf({})`. -/
def anEmptyObject : Schema := recordOf []

/-- `unionOf(isLeft, isRight, left, right)`: encodes through the first
matching discriminating predicate (`impossible` if neither holds);
decodes and validates by trying `left.validate` first. -/
def unionOf (isLeft isRight : JSValue → Bool) (left right : Schema) : Schema where
  encode := fun x =>
    if isLeft x then left.encode x
    else if isRight x then right.encode x
    else .error .impossible
  decode := fun data =>
    if left.validate data then left.decode data
    else if right.validate data then right.decode data
    else .error .impossible
  validate := fun data => left.validate data || right.validate data

/-- `union(left, right) = unionOf(x => left.validate(x),
x => !left.validate(x), left, right)`. -/
def union (left right : Schema) : Schema :=
  unionOf (fun x => left.validate x) (fun x => !left.validate x) left right

/-- `optional(schema) = union(anUndefined, schema)`. -/
def optional (schema : Schema) : Schema := union anUndefined schema

/-- `constrain(schema, predicate)`: ANDs the predicate onto the base
validator; codecs unchanged. -/
def constrain (schema : Schema) (predicate : JSValue → Bool) : Schema where
  encode := schema.encode
  decode := schema.decode
  validate := fun x => schema.validate x && predicate x

/-- `asserting(schema, predicate)`: behaviourally `constrain`. -/
def asserting (schema : Schema) (predicate : JSValue → Bool) : Schema :=
  constrain schema predicate

/-- `indexing(values)`: encodes a value as its first index in `values`
(`indexOf`, strict equality), throwing on a miss; decodes `x` as
`values[x]` (`undefined` out of bounds); validates numbers `n` with
`n >= 0 && n < values.length`. -/
def indexing (values : List JSValue) : Schema :=
  contra
    (constrain aNumber fun x =>
      match x with
      | .num n => decide (0 ≤ n) && decide (n < (values.length : Int))
      | _ => false)
    (fun x =>
      match values.findIdx? (fun v => v == x) with
      | some ix => .ok (.num (ix : Int))
      | none => .error .encodeMiss)
    (fun x =>
      match x with
      | .num n => .ok (if 0 ≤ n then values.getD n.toNat .undefined else .undefined)
      | _ => .ok .undefined)

/-- The property names every plain object literal inherits from
`Object.prototype` (its prototype chain). -/
def objectPrototypeProps : List String :=
  ["constructor", "hasOwnProperty", "isPrototypeOf", "propertyIsEnumerable",
   "toLocaleString", "toString", "valueOf", "__proto__", "__defineGetter__",
   "__defineSetter__", "__lookupGetter__", "__lookupSetter__"]

/-- The JS `in` operator applied to a plain object literal: true for the
object's own keys and for the properties inherited from
`Object.prototype`. -/
def inObject (values : List (String × JSValue)) (s : String) : Bool :=
  (values.any fun p => p.1 == s) || objectPrototypeProps.contains s

/-- `mapping(values)`: encodes a value as the first key of `values`
mapping to it (`for (const k in values)`), throwing on a miss; decodes a
key `k` as `values[k]` (an own-key lookup in the model: reading an
inherited key would give an `Object.prototype` function, which is
outside the value model); validates via
`asserting(aString, s => s in values)`, where `in` consults the
prototype chain, so inherited `Object.prototype` property names pass
too. -/
def mapping (values : List (String × JSValue)) : Schema :=
  contra
    (asserting aString fun x =>
      match x with
      | .str s => inObject values s
      | _ => false)
    (fun val =>
      match values.find? (fun p => p.2 == val) with
      | some p => .ok (.str p.1)
      | none => .error .encodeMiss)
    (fun key =>
      match key with
      | .str k => .ok ((values.find? fun p => p.1 == k).elim .undefined Prod.snd)
      | _ => .ok .undefined)

/-- A JSON `SyntaxError` thrown by the parse primitive. -/
structure SyntaxErr : Type where
  message : String
deriving DecidableEq

/-- `DecodeResult<T>` (src/src/Serialize.ts): the three structured
outcomes of `jsonDecodeWith`. -/
inductive DecodeResult : Type
  | success (result : JSValue)
  | syntaxError (error : SyntaxErr)
  | invalidStructure

/-- `jsonDecodeWith(json, schema)` (src/src/Serialize.ts), parametric in
the platform primitive `JSON.parse`, modelled as a function returning
either a value or the `SyntaxError` it throws. A `SyntaxError` from
parsing is caught and becomes the `syntaxError` outcome; an accepted
parse decodes into `success`; a rejected one gives `invalidStructure`.
A non-`SyntaxError` exception (one `schema.decode` throws) is re-thrown,
hence the `Except JSError` result. -/
def jsonDecodeWith (parse : String → Except SyntaxErr JSValue) (json : String)
    (schema : Schema) : Except JSError DecodeResult :=
  match parse json with
  | .ok result =>
    if schema.validate result then
      match schema.decode result with
      | .ok t => .ok (.success t)
      | .error e => .error e
    else
      .ok .invalidStructure
  | .error e => .ok (.syntaxError e)

instance {ε α : Type} [DecidableEq ε] [DecidableEq α] : DecidableEq (Except ε α) :=
  fun a b =>
    match a, b with
    | .ok x, .ok y => decidable_of_iff (x = y) (by simp)
    | .error x, .error y => decidable_of_iff (x = y) (by simp)
    | .ok _, .error _ => .isFalse (by simp)
    | .error _, .ok _ => .isFalse (by simp)

/-- The grammar of claim C1: schemas built from the primitive schemas,
`literal`, and the purely structural combinators `recordOf`, `tupleOf`,
`arrayOf` and `union`. -/
inductive SchemaExpr : Type
  | sString
  | sNumber
  | sBoolean
  | sNull
  | sUndefined
  | sLiteral (v : JSValue)
  | sRecordOf (fields : List (String × SchemaExpr))
  | sTupleOf (elems : List SchemaExpr)
  | sArrayOf (elem : SchemaExpr)
  | sUnion (left right : SchemaExpr)

/-- The schema a `SchemaExpr` denotes, combinator by combinator. -/
def SchemaExpr.denote : SchemaExpr → Schema
  | .sString => aString
  | .sNumber => aNumber
  | .sBoolean => aBoolean
  | .sNull => aNull
  | .sUndefined => anUndefined
  | .sLiteral v => literal v
  | .sRecordOf fields => recordOf (fields.attach.map fun p => (p.1.1, p.1.2.denote))
  | .sTupleOf elems => tupleOf (elems.attach.map fun e => e.1.denote)
  | .sArrayOf elem => arrayOf elem.denote
  | .sUnion left right => union left.denote right.denote
decreasing_by
  · have h1 := List.sizeOf_lt_of_mem p.2
    have h2 : sizeOf p.1.2 < sizeOf p.1 := by
      obtain ⟨⟨k, v⟩, hp⟩ := p
      simp
    simp only [SchemaExpr.sRecordOf.sizeOf_spec]
    omega
  · have h1 := List.sizeOf_lt_of_mem e.2
    simp only [SchemaExpr.sTupleOf.sizeOf_spec]
    omega
  · simp only [SchemaExpr.sArrayOf.sizeOf_spec]; omega
  · simp only [SchemaExpr.sUnion.sizeOf_spec]; omega
  · simp only [SchemaExpr.sUnion.sizeOf_spec]; omega

/-- `denote` on `sRecordOf`, with the termination bookkeeping removed. -/
theorem denote_sRecordOf (fields : List (String × SchemaExpr)) :
    (SchemaExpr.sRecordOf fields).denote =
      recordOf (fields.map fun p => (p.1, p.2.denote)) := by
  simp only [SchemaExpr.denote]
  rw [List.attach_map_val fields fun p => (p.1, p.2.denote)]

/-- `denote` on `sTupleOf`, with the termination bookkeeping removed. -/
theorem denote_sTupleOf (elems : List SchemaExpr) :
    (SchemaExpr.sTupleOf elems).denote = tupleOf (elems.map fun e => e.denote) := by
  simp only [SchemaExpr.denote]
  rw [List.attach_map_val elems fun e => e.denote]

/-- The domain values producible by normal construction for a
`SchemaExpr`: primitives produce values of their runtime type, `literal`
its constant, `recordOf` objects with exactly the declared keys (values
produced by the field schemas), `tupleOf` arrays of exactly the declared
arity, `arrayOf` arrays of element-domain values, and a union produces
the values of either branch. -/
inductive Produces : SchemaExpr → JSValue → Prop
  | str (s : String) : Produces .sString (.str s)
  | num (n : Int) : Produces .sNumber (.num n)
  | bool (b : Bool) : Produces .sBoolean (.bool b)
  | null : Produces .sNull .null
  | undefined : Produces .sUndefined .undefined
  | lit (v : JSValue) : Produces (.sLiteral v) v
  | record (fields : List (String × SchemaExpr)) (entries : List (String × JSValue))
      (hkeys : entries.map Prod.fst = fields.map Prod.fst)
      (hnodup : (fields.map Prod.fst).Nodup)
      (hvals : ∀ (i : ℕ) (hf : i < fields.length) (he : i < entries.length),
        Produces fields[i].2 entries[i].2) :
      Produces (.sRecordOf fields) (.obj entries)
  | tuple (elems : List SchemaExpr) (xs : List JSValue)
      (hlen : xs.length = elems.length)
      (hvals : ∀ (i : ℕ) (hs : i < elems.length) (hx : i < xs.length),
        Produces elems[i] xs[i]) :
      Produces (.sTupleOf elems) (.arr xs)
  | array (elem : SchemaExpr) (xs : List JSValue)
      (hvals : ∀ x ∈ xs, Produces elem x) :
      Produces (.sArrayOf elem) (.arr xs)
  | unionLeft (left right : SchemaExpr) (t : JSValue)
      (h : Produces left t) :
      Produces (.sUnion left right) t
  | unionRight (left right : SchemaExpr) (t : JSValue)
      (h : Produces right t) :
      Produces (.sUnion left right) t

/-- Like `Produces`, with the amendment the union counterexample forces:
at a union node, a value produced through the right branch must not be
accepted by the left schema's validator (otherwise left-biased encoding
re-routes it through the left schema and can drop information). -/
inductive ProducesSep : SchemaExpr → JSValue → Prop
  | str (s : String) : ProducesSep .sString (.str s)
  | num (n : Int) : ProducesSep .sNumber (.num n)
  | bool (b : Bool) : ProducesSep .sBoolean (.bool b)
  | null : ProducesSep .sNull .null
  | undefined : ProducesSep .sUndefined .undefined
  | lit (v : JSValue) : ProducesSep (.sLiteral v) v
  | record (fields : List (String × SchemaExpr)) (entries : List (String × JSValue))
      (hkeys : entries.map Prod.fst = fields.map Prod.fst)
      (hnodup : (fields.map Prod.fst).Nodup)
      (hvals : ∀ (i : ℕ) (hf : i < fields.length) (he : i < entries.length),
        ProducesSep fields[i].2 entries[i].2) :
      ProducesSep (.sRecordOf fields) (.obj entries)
  | tuple (elems : List SchemaExpr) (xs : List JSValue)
      (hlen : xs.length = elems.length)
      (hvals : ∀ (i : ℕ) (hs : i < elems.length) (hx : i < xs.length),
        ProducesSep elems[i] xs[i]) :
      ProducesSep (.sTupleOf elems) (.arr xs)
  | array (elem : SchemaExpr) (xs : List JSValue)
      (hvals : ∀ x ∈ xs, ProducesSep elem x) :
      ProducesSep (.sArrayOf elem) (.arr xs)
  | unionLeft {left right : SchemaExpr} {t : JSValue}
      (h : ProducesSep left t) :
      ProducesSep (.sUnion left right) t
  | unionRight (left right : SchemaExpr) (t : JSValue)
      (hnol : left.denote.validate t = false)
      (h : ProducesSep right t) :
      ProducesSep (.sUnion left right) t

/-- Traversing with an `Except`-valued function succeeds pointwise: if
`f` returns `ok` of the i-th element of `out` on the i-th element of
`l`, the whole `mapM` returns `ok out`. -/
theorem mapM_ok_of_forall {α β : Type} (f : α → Except JSError β) :
    ∀ (l : List α) (out : List β), out.length = l.length →
      (∀ (i : ℕ) (hl : i < l.length) (ho : i < out.length),
        f l[i] = .ok out[i]) →
      l.mapM f = .ok out := by
  intro l
  induction l with
  | nil =>
    intro out hlen _
    cases out with
    | nil => rfl
    | cons b out => simp at hlen
  | cons a l ihl =>
    intro out hlen hpt
    cases out with
    | nil => simp at hlen
    | cons b out =>
      have h0 : f a = .ok b := hpt 0 (by simp) (by simp)
      have hrest : l.mapM f = .ok out := by
        apply ihl out (by simpa using hlen)
        intro i hl ho
        have hstep := hpt (i + 1) (by simpa using hl) (by simpa using ho)
        simpa using hstep
      rw [List.mapM_cons, h0, hrest]
      rfl

/-- In an association list with distinct keys, searching for the i-th
key finds the i-th entry. -/
theorem find_key_of_nodup (l : List (String × JSValue)) (i : ℕ) (hi : i < l.length)
    (hnd : (l.map Prod.fst).Nodup) :
    l.find? (fun p => p.1 == l[i].1) = some l[i] := by
  induction l generalizing i with
  | nil => simp at hi
  | cons a l ihl =>
    cases i with
    | zero => simp
    | succ i =>
      have hi2 : i < l.length := by simpa using hi
      simp only [List.map_cons, List.nodup_cons] at hnd
      have hmem : l[i].1 ∈ l.map Prod.fst :=
        List.mem_map_of_mem Prod.fst (List.getElem_mem hi2)
      have hne : ¬((a.1 == l[i].1) = true) := by
        simp only [beq_iff_eq]
        intro he
        exact hnd.1 (he ▸ hmem)
      have hg : (a :: l)[i + 1] = l[i] := List.getElem_cons_succ a l i hi
      rw [hg, List.find?_cons_of_neg l (by exact hne)]
      exact ihl i hi2 hnd.2

/-- Reading a declared key of an object whose keys are distinct gives the
entry at that key's position. -/
theorem getProp_obj_getElem (entries : List (String × JSValue)) (i : ℕ)
    (hi : i < entries.length) (hnd : (entries.map Prod.fst).Nodup) :
    getProp (.obj entries) entries[i].1 = entries[i].2 := by
  simp [getProp, find_key_of_nodup entries i hi hnd]

/-- Reading an absent key of an object gives `undefined`. -/
theorem getProp_obj_of_not_mem (entries : List (String × JSValue)) (k : String)
    (h : k ∉ entries.map Prod.fst) :
    getProp (.obj entries) k = .undefined := by
  simp only [getProp]
  rw [List.find?_eq_none.mpr]
  intro p hp
  simp only [beq_iff_eq]
  intro he
  exact h (he ▸ List.mem_map_of_mem Prod.fst hp)

/-- A list is `all`-true when the predicate holds at every index. -/
theorem all_of_forall_getElem {α : Type} (l : List α) (p : α → Bool)
    (h : ∀ (i : ℕ) (hi : i < l.length), p l[i] = true) : l.all p = true := by
  rw [List.all_eq_true]
  intro x hx
  obtain ⟨i, hi, hgi⟩ := List.mem_iff_getElem.mp hx
  rw [← hgi]
  exact h i hi

/-- Every schema in the C1 grammar is the identity codec on the domain
values it produces (under the separation condition at union nodes), and
accepts them: the substance behind the round-trip law. -/
theorem producesSep_id (e : SchemaExpr) (t : JSValue) (h : ProducesSep e t) :
    e.denote.encode t = .ok t ∧ e.denote.validate t = true ∧
      e.denote.decode t = .ok t := by
  induction h with
  | str s => simp [SchemaExpr.denote, aString, primitive]
  | num n => simp [SchemaExpr.denote, aNumber, primitive]
  | bool b => simp [SchemaExpr.denote, aBoolean, primitive]
  | null => simp [SchemaExpr.denote, aNull, primitive]
  | undefined => simp [SchemaExpr.denote, anUndefined, primitive]
  | lit v => simp [SchemaExpr.denote, literal]
  | record fields entries hkeys hnodup hvals ih =>
    rw [denote_sRecordOf]
    have hndent : (entries.map Prod.fst).Nodup := by rw [hkeys]; exact hnodup
    have hlen : entries.length = fields.length := by
      have hc := congrArg List.length hkeys
      simpa using hc
    have hkey : ∀ (i : ℕ) (hf : i < fields.length) (he : i < entries.length),
        fields[i].1 = entries[i].1 := by
      intro i hf he
      have h1 : (entries.map Prod.fst)[i]? = (fields.map Prod.fst)[i]? := by
        rw [hkeys]
      rw [List.getElem?_map, List.getElem?_map, List.getElem?_eq_getElem he,
        List.getElem?_eq_getElem hf] at h1
      simp at h1
      exact h1.symm
    refine ⟨?_, ?_, ?_⟩
    · simp only [recordOf]
      have hh := mapM_ok_of_forall
        (fun (p : String × Schema) =>
          (p.2.encode (getProp (.obj entries) p.1)).map fun v => (p.1, v))
        (fields.map fun p => (p.1, p.2.denote)) entries (by simpa using hlen)
        (fun i hl ho => by
          have hf : i < fields.length := by simpa using hl
          simp only [List.getElem_map]
          rw [hkey i hf ho, getProp_obj_getElem entries i ho hndent,
            (ih i hf ho).1]
          rfl)
      rw [hh]
      rfl
    · simp only [recordOf]
      rw [show isObjectType (.obj entries) = true from rfl, Bool.true_and]
      apply all_of_forall_getElem
      intro i hl
      have hf : i < fields.length := by simpa using hl
      have he : i < entries.length := by omega
      simp only [List.getElem_map]
      rw [hkey i hf he, getProp_obj_getElem entries i he hndent]
      exact (ih i hf he).2.1
    · simp only [recordOf]
      have hh := mapM_ok_of_forall
        (fun (p : String × Schema) =>
          (p.2.decode (getProp (.obj entries) p.1)).map fun v => (p.1, v))
        (fields.map fun p => (p.1, p.2.denote)) entries (by simpa using hlen)
        (fun i hl ho => by
          have hf : i < fields.length := by simpa using hl
          simp only [List.getElem_map]
          rw [hkey i hf ho, getProp_obj_getElem entries i ho hndent,
            (ih i hf ho).2.2]
          rfl)
      rw [hh]
      rfl
  | tuple elems xs hlen hvals ih =>
    rw [denote_sTupleOf]
    have hsome : ∀ (i : ℕ) (hs : i < elems.length),
        (elems.map fun e => e.denote)[i]? = some elems[i].denote := by
      intro i hs
      have hs2 : i < (elems.map fun e => e.denote).length := by simpa using hs
      rw [List.getElem?_eq_getElem hs2, List.getElem_map]
    refine ⟨?_, ?_, ?_⟩
    · simp only [tupleOf]
      have hh := mapM_ok_of_forall
        (fun (p : ℕ × JSValue) =>
          match (elems.map fun e => e.denote)[p.1]? with
          | some s => s.encode p.2
          | none => .error .typeError)
        xs.enum xs (by simp)
        (fun i hl ho => by
          have hs : i < elems.length := by omega
          simp only [List.getElem_enum, hsome i hs]
          exact (ih i hs ho).1)
      rw [hh]
      rfl
    · simp only [tupleOf]
      rw [Bool.and_eq_true]
      constructor
      · simp [hlen]
      · apply all_of_forall_getElem
        intro i hl
        have hs : i < elems.length := by simpa using hl
        have hx : i < xs.length := by omega
        simp only [List.getElem_enum, List.getElem_map, List.getD_eq_getElem?_getD,
          List.getElem?_eq_getElem hx, Option.getD_some]
        exact (ih i hs hx).2.1
    · simp only [tupleOf]
      have hh := mapM_ok_of_forall
        (fun (p : ℕ × JSValue) =>
          match (elems.map fun e => e.denote)[p.1]? with
          | some s => s.decode p.2
          | none => .error .typeError)
        xs.enum xs (by simp)
        (fun i hl ho => by
          have hs : i < elems.length := by omega
          simp only [List.getElem_enum, hsome i hs]
          exact (ih i hs ho).2.2)
      rw [hh]
      rfl
  | array elem xs hvals ih =>
    simp only [SchemaExpr.denote, arrayOf]
    refine ⟨?_, ?_, ?_⟩
    · have hh := mapM_ok_of_forall elem.denote.encode xs xs rfl
        (fun i hl ho => (ih xs[i] (List.getElem_mem hl)).1)
      rw [hh]
      rfl
    · rw [List.all_eq_true]
      exact fun x hx => (ih x hx).2.1
    · have hh := mapM_ok_of_forall elem.denote.decode xs xs rfl
        (fun i hl ho => (ih xs[i] (List.getElem_mem hl)).2.2)
      rw [hh]
      rfl
  | unionLeft h ih =>
    obtain ⟨henc, hval, hdec⟩ := ih
    simp [SchemaExpr.denote, union, unionOf, hval, henc, hdec]
  | unionRight left right t hnol h ih =>
    obtain ⟨henc, hval, hdec⟩ := ih
    simp [SchemaExpr.denote, union, unionOf, hnol, hval, henc, hdec]


/-- C1 counterexample: the round-trip law as stated fails on the code for
overlapping unions. `union(anEmptyObject, recordOf({x: aNumber}))` routes
the normally-constructed right-branch value `{x: 1}` through the left
schema (whose validator accepts any object), encoding it to `{}`, so
`decode(encode(t))` is `{}`, not `t`. -/
theorem c1_roundtrip_counterexample :
    Produces (.sUnion (.sRecordOf []) (.sRecordOf [("x", .sNumber)]))
      (.obj [("x", .num 1)]) ∧
    ((SchemaExpr.sUnion (.sRecordOf []) (.sRecordOf [("x", .sNumber)])).denote.encode
        (.obj [("x", .num 1)]) >>=
      (SchemaExpr.sUnion (.sRecordOf []) (.sRecordOf [("x", .sNumber)])).denote.decode) ≠
      .ok (.obj [("x", .num 1)]) := by
  constructor
  · refine Produces.unionRight _ _ _ (Produces.record _ _ rfl (by simp) ?_)
    intro i hf he
    match i with
    | 0 => exact Produces.num 1
    | n + 1 => exact absurd hf (by simp)
  · simp only [SchemaExpr.denote, denote_sRecordOf]
    decide

/-- C1 (amended): for every schema built from the primitives, `literal`,
and the structural combinators `recordOf`, `tupleOf`, `arrayOf`, `union`,
and every domain value `t` producible by normal construction in which a
union's right-branch value is never one the left schema's validator
accepts, `encode(t)` succeeds, `validate(encode(t))` is true, and
`decode(encode(t))` recovers exactly `t`. -/
theorem c1_structural_roundtrip (e : SchemaExpr) (t : JSValue)
    (h : ProducesSep e t) :
    ∃ s, e.denote.encode t = .ok s ∧ e.denote.validate s = true ∧
      e.denote.decode s = .ok t :=
  ⟨t, (producesSep_id e t h).1, (producesSep_id e t h).2.1,
    (producesSep_id e t h).2.2⟩

/-- C1 witness: the round-trip at `arrayOf(aNumber)` on `[1, 2]`. -/
theorem c1_structural_roundtrip_witness :
    ∃ s, (SchemaExpr.sArrayOf .sNumber).denote.encode (.arr [.num 1, .num 2]) =
        .ok s ∧
      (SchemaExpr.sArrayOf .sNumber).denote.validate s = true ∧
      (SchemaExpr.sArrayOf .sNumber).denote.decode s = .ok (.arr [.num 1, .num 2]) :=
  c1_structural_roundtrip (.sArrayOf .sNumber) (.arr [.num 1, .num 2])
    (ProducesSep.array .sNumber [.num 1, .num 2] (by
      intro x hx
      simp only [List.mem_cons, List.not_mem_nil, or_false] at hx
      rcases hx with rfl | rfl
      · exact ProducesSep.num 1
      · exact ProducesSep.num 2))

/-- C2: when a representation value is accepted by both branch
validators, `unionOf` (and `union`) decodes through the left schema. -/
theorem c2_union_left_bias (isLeft isRight : JSValue → Bool)
    (left right : Schema) (s : JSValue)
    (hl : left.validate s = true) (hr : right.validate s = true) :
    (unionOf isLeft isRight left right).decode s = left.decode s ∧
    (union left right).decode s = left.decode s := by
  constructor <;> simp [unionOf, union, hl]

/-- C2 witness: both `aNumber` and `anAny` accept `5`; the union decodes
it through the left schema. -/
theorem c2_union_left_bias_witness :
    (unionOf (fun _ => true) (fun _ => false) aNumber anAny).decode (.num 5) =
        aNumber.decode (.num 5) ∧
    (union aNumber anAny).decode (.num 5) = aNumber.decode (.num 5) :=
  c2_union_left_bias (fun _ => true) (fun _ => false) aNumber anAny (.num 5)
    rfl rfl

/-- C3: `recordOf(fields).validate(x)` is true iff `x` is a non-null
value of object type and every declared field's validator accepts `x`'s
value at that field; a missing key reads as the absence marker
`undefined`, and `optional` (union with `anUndefined`) accepts it. -/
theorem c3_recordOf_validate (fields : List (String × Schema)) (x : JSValue) :
    ((recordOf fields).validate x = true ↔
      (isObjectType x = true ∧
        ∀ p ∈ fields, p.2.validate (getProp x p.1) = true)) ∧
    (∀ (entries : List (String × JSValue)) (k : String),
      k ∉ entries.map Prod.fst → getProp (.obj entries) k = .undefined) ∧
    (∀ s : Schema, (optional s).validate .undefined = true) := by
  refine ⟨?_, getProp_obj_of_not_mem, ?_⟩
  · simp [recordOf, List.all_eq_true]
  · intro s
    simp [optional, union, unionOf, anUndefined, primitive]

/-- C4: `tupleOf(schemas).validate(x)` is true exactly when `x` is an
array of exactly the declared arity whose i-th element satisfies the
i-th schema's validator; any array of a different length is rejected. -/
theorem c4_tupleOf_validate (elementSchemas : List Schema) (x : JSValue) :
    ((tupleOf elementSchemas).validate x = true ↔
      ∃ xs : List JSValue, x = .arr xs ∧ xs.length = elementSchemas.length ∧
        ∀ (i : ℕ) (hs : i < elementSchemas.length) (hx : i < xs.length),
          elementSchemas[i].validate xs[i] = true) ∧
    (∀ xs : List JSValue, xs.length ≠ elementSchemas.length →
      (tupleOf elementSchemas).validate (.arr xs) = false) := by
  constructor
  · cases x with
    | arr xs =>
      simp only [tupleOf, JSValue.arr.injEq, Bool.and_eq_true, beq_iff_eq]
      constructor
      · rintro ⟨hlen, hall⟩
        refine ⟨xs, rfl, hlen, ?_⟩
        intro i hs hx
        rw [List.all_eq_true] at hall
        have hmem : (i, elementSchemas[i]) ∈ elementSchemas.enum := by
          rw [List.mem_enum_iff_getElem?]
          exact List.getElem?_eq_getElem hs
        have hone := hall _ hmem
        simpa [List.getD_eq_getElem?_getD, List.getElem?_eq_getElem hx]
          using hone
      · rintro ⟨xs2, heq, hlen, hpt⟩
        rw [heq]
        refine ⟨hlen, all_of_forall_getElem _ _ fun i hi => ?_⟩
        have hs : i < elementSchemas.length := by simpa using hi
        have hx : i < xs2.length := by omega
        simp only [List.getElem_enum, List.getD_eq_getElem?_getD,
          List.getElem?_eq_getElem hx, Option.getD_some]
        exact hpt i hs hx
    | str s => simp [tupleOf]
    | num n => simp [tupleOf]
    | bool b => simp [tupleOf]
    | null => simp [tupleOf]
    | undefined => simp [tupleOf]
    | obj fs => simp [tupleOf]
  · intro xs hne
    have hbeq : (xs.length == elementSchemas.length) = false := by
      simp [hne]
    simp only [tupleOf, hbeq, Bool.false_and]

/-- C5: `compose` chains the codecs end-to-end and keeps only the second
schema's validator; the first schema's validator is discarded. -/
theorem c5_compose (schema1 schema2 : Schema) :
    (∀ x, (compose schema1 schema2).encode x =
      schema1.encode x >>= schema2.encode) ∧
    (∀ x, (compose schema1 schema2).decode x =
      schema2.decode x >>= schema1.decode) ∧
    (compose schema1 schema2).validate = schema2.validate :=
  ⟨fun _ => rfl, fun _ => rfl, rfl⟩

/-- C6 (amended): `indexing` validates exactly the in-bounds numbers;
`mapping` validates exactly the strings that are keys of the table or
property names inherited from `Object.prototype`, because the JS `in`
operator consults the prototype chain; encoding a value absent from the
table throws the lookup-miss error; decoding an in-bounds index or table
key returns the corresponding table entry. -/
theorem c6_lookup_combinators (values : List JSValue)
    (table : List (String × JSValue)) :
    (∀ x, (indexing values).validate x = true ↔
      ∃ n : Int, x = .num n ∧ 0 ≤ n ∧ n < (values.length : Int)) ∧
    (∀ x, x ∉ values → (indexing values).encode x = .error .encodeMiss) ∧
    (∀ (i : ℕ) (hi : i < values.length),
      (indexing values).decode (.num (i : Int)) = .ok values[i]) ∧
    (∀ x, (mapping table).validate x = true ↔
      ∃ k : String, x = .str k ∧
        ((∃ v, (k, v) ∈ table) ∨ k ∈ objectPrototypeProps)) ∧
    (∀ x, (∀ p ∈ table, p.2 ≠ x) →
      (mapping table).encode x = .error .encodeMiss) ∧
    (∀ (k : String) (v : JSValue), (table.map Prod.fst).Nodup →
      (k, v) ∈ table → (mapping table).decode (.str k) = .ok v) := by
  refine ⟨?_, ?_, ?_, ?_, ?_, ?_⟩
  · intro x
    cases x <;> simp [indexing, contra, constrain, aNumber, primitive]
  · intro x hx
    have hnone : values.findIdx? (fun v => v == x) = none := by
      rw [List.findIdx?_eq_none_iff]
      intro v hv
      simp only [beq_eq_false_iff_ne, ne_eq]
      intro he
      exact hx (he ▸ hv)
    simp only [indexing, contra, hnone]
    rfl
  · intro i hi
    have hnn : (0 : Int) ≤ (i : Int) := Int.natCast_nonneg i
    have hstep : (indexing values).decode (.num (i : Int)) =
        .ok (if 0 ≤ (i : Int) then values.getD ((i : Int)).toNat .undefined
          else .undefined) := rfl
    rw [hstep, if_pos hnn, Int.toNat_natCast]
    simp [List.getD_eq_getElem?_getD, List.getElem?_eq_getElem hi]
  · intro x
    cases x with
    | str k =>
      simp only [mapping, contra, asserting, constrain, aString, primitive,
        Bool.true_and, inObject]
      rw [Bool.or_eq_true, List.any_eq_true]
      constructor
      · rintro (⟨p, hp, hpk⟩ | hmem)
        · rw [beq_iff_eq] at hpk
          exact ⟨k, rfl, Or.inl ⟨p.2, by rw [← hpk]; exact hp⟩⟩
        · refine ⟨k, rfl, Or.inr ?_⟩
          exact List.elem_iff.mp hmem
      · rintro ⟨k2, hk2, hor⟩
        have hkk : k2 = k := by
          injection hk2 with h2
          exact h2.symm
        subst hkk
        rcases hor with ⟨v, hv⟩ | hmem
        · exact Or.inl ⟨(k2, v), hv, by simp⟩
        · exact Or.inr (List.elem_iff.mpr hmem)
    | num n =>
      rw [show (mapping table).validate (JSValue.num n) = false from rfl]
      simp
    | bool b =>
      rw [show (mapping table).validate (JSValue.bool b) = false from rfl]
      simp
    | null =>
      rw [show (mapping table).validate (JSValue.null) = false from rfl]
      simp
    | undefined =>
      rw [show (mapping table).validate (JSValue.undefined) = false from rfl]
      simp
    | arr xs =>
      rw [show (mapping table).validate (JSValue.arr xs) = false from rfl]
      simp
    | obj fs =>
      rw [show (mapping table).validate (JSValue.obj fs) = false from rfl]
      simp
  · intro x hx
    have hnone : table.find? (fun p => p.2 == x) = none := by
      rw [List.find?_eq_none]
      intro p hp
      simp only [beq_iff_eq]
      exact hx p hp
    simp only [mapping, contra, hnone]
    rfl
  · intro k v hnd hmem
    obtain ⟨i, hi, hgi⟩ := List.mem_iff_getElem.mp hmem
    have hfind := find_key_of_nodup table i hi hnd
    rw [hgi] at hfind
    have hfind2 : table.find? (fun p => p.1 == k) = some (k, v) := hfind
    have hstep : (mapping table).decode (.str k) =
        .ok ((table.find? fun p => p.1 == k).elim .undefined Prod.snd) := rfl
    rw [hstep, hfind2]
    rfl

/-- C6 counterexample: `mapping({foo: 10}).validate("toString")` is true
in the program because the JS `in` operator finds `toString` on the
prototype chain, yet `"toString"` is not a key of the table — so
`mapping` does not validate exactly the table's keys as the claim
states. -/
theorem c6_mapping_prototype_counterexample :
    (mapping [("foo", .num 10)]).validate (.str "toString") = true ∧
    "toString" ∉ ([("foo", JSValue.num 10)].map Prod.fst) := by
  refine ⟨by decide, by decide⟩

/-- C7: a literal schema validates exactly the inputs strictly equal to
its constant, and encodes and decodes as the identity. -/
theorem c7_literal (v x : JSValue) :
    ((literal v).validate x = true ↔ x = v) ∧
    (literal v).encode x = .ok x ∧ (literal v).decode x = .ok x := by
  refine ⟨?_, rfl, rfl⟩
  simp [literal]

/-- C8: `jsonDecodeWith` returns the `syntaxError` outcome (and does not
raise) when the parse primitive throws a `SyntaxError`, the `success`
outcome carrying the schema-decoded value when parsing succeeds and the
schema validates it, and `invalidStructure` when parsing succeeds but
validation rejects. -/
theorem c8_jsonDecodeWith (parse : String → Except SyntaxErr JSValue)
    (json : String) (schema : Schema) :
    (∀ e, parse json = .error e →
      jsonDecodeWith parse json schema = .ok (.syntaxError e)) ∧
    (∀ v, parse json = .ok v → schema.validate v = true →
      ∀ t, schema.decode v = .ok t →
        jsonDecodeWith parse json schema = .ok (.success t)) ∧
    (∀ v, parse json = .ok v → schema.validate v = false →
      jsonDecodeWith parse json schema = .ok .invalidStructure) := by
  refine ⟨?_, ?_, ?_⟩
  · intro e he
    simp [jsonDecodeWith, he]
  · intro v hv hval t ht
    simp [jsonDecodeWith, hv, hval, ht]
  · intro v hv hval
    simp [jsonDecodeWith, hv, hval]

/-- C9: `union` infers its right discriminating predicate as the negation
of the left validator, so encoding dispatches exhaustively: it equals the
left encoder when the left validator accepts and the right encoder
otherwise, and the `impossible` branch is never the source of an error. -/
theorem c9_union_encode_total (left right : Schema) (x : JSValue) :
    ((union left right).encode x =
      if left.validate x then left.encode x else right.encode x) ∧
    (left.encode x ≠ .error .impossible → right.encode x ≠ .error .impossible →
      (union left right).encode x ≠ .error .impossible) := by
  constructor
  · by_cases h : left.validate x = true <;> simp [union, unionOf, h]
  · intro h1 h2
    by_cases h : left.validate x = true <;> simp [union, unionOf, h, h1, h2]

/-- C10: `recordOf` validation looks only at the declared field names, so
extending a validated object with undeclared properties keeps it valid;
`anEmptyObject = recordOf({})` validates every non-null value of object
type, arrays included. -/
theorem c10_recordOf_undeclared_fields (fields : List (String × Schema))
    (entries extra : List (String × JSValue))
    (hextra : ∀ p ∈ extra, p.1 ∉ fields.map Prod.fst)
    (h : (recordOf fields).validate (.obj entries) = true) :
    (recordOf fields).validate (.obj (entries ++ extra)) = true ∧
    (∀ x, anEmptyObject.validate x = isObjectType x) := by
  constructor
  · simp only [recordOf, Bool.and_eq_true, List.all_eq_true] at h ⊢
    refine ⟨rfl, ?_⟩
    intro p hp
    have hk : p.1 ∉ extra.map Prod.fst := by
      intro hmem
      obtain ⟨q, hq, hq1⟩ := List.mem_map.mp hmem
      exact hextra q hq (hq1 ▸ List.mem_map_of_mem Prod.fst hp)
    have hgp : getProp (.obj (entries ++ extra)) p.1 =
        getProp (.obj entries) p.1 := by
      simp only [getProp, List.find?_append]
      cases hfind : entries.find? (fun q => q.1 == p.1) with
      | some q => rfl
      | none =>
        have hnone : extra.find? (fun q => q.1 == p.1) = none := by
          rw [List.find?_eq_none]
          intro q hq
          simp only [beq_iff_eq]
          intro he
          exact hk (he ▸ List.mem_map_of_mem Prod.fst hq)
        rw [hnone]
        rfl
    rw [hgp]
    exact h.2 p hp
  · intro x
    cases x <;> rfl

/-- C10 witness: `{a: 1}` validates against `recordOf({a: aNumber})` and
stays valid after adding the undeclared property `b`; `anEmptyObject`
accepts arrays and rejects numbers. -/
theorem c10_recordOf_undeclared_fields_witness :
    (recordOf [("a", aNumber)]).validate
        (.obj ([("a", .num 1)] ++ [("b", .str "s")])) = true ∧
    (∀ x, anEmptyObject.validate x = isObjectType x) :=
  c10_recordOf_undeclared_fields [("a", aNumber)] [("a", .num 1)]
    [("b", .str "s")] (by decide) (by decide)


end Augustus
